import Mathlib

/-!
Shallow embedding of the preffixer utility (src/main.go).

File contents, prefixes and paths are modelled as `List Char`; Go strings are
byte strings and every property of interest here is byte-level, so character
lists model them faithfully.  File I/O is modelled by a partial map from paths
to contents: reading a path outside the map is the per-file read error.  The
directory traversal of `filepath.Walk` is an input to `walkMatch`: either the
entries in walk order, or the traversal error raised when the root cannot be
walked.
-/

namespace Preffixer

/-- Contents, prefixes and paths: lists of characters. -/
abbrev Content := List Char

/-- Go `strings.HasPrefix s p`: `p` is a prefix of `s`. -/
def hasPrefix (s p : Content) : Bool := p.isPrefixOf s

/-- Go `strings.TrimPrefix s p`: drops one leading occurrence of `p` when present. -/
def trimPrefix (s p : Content) : Content :=
  if hasPrefix s p then s.drop p.length else s

/-- Line-break character appended or stripped by the `-e` flag (`'\n'` in the source). -/
def lineBreak : Content := ['\n']

/-- Content transformation of `injectPrefix` (src/main.go:214-236): the changed
flag and the resulting content; the surrounding file I/O is `injectFile`. -/
def injectContent (content p : Content) (lineEnd : Bool) : Bool × Content :=
  if hasPrefix content p then (false, content)
  else (true, p ++ (if lineEnd then lineBreak else []) ++ content)

/-- Content transformation of `removePrefix` (src/main.go:238-258). -/
def removeContent (content p : Content) (lineEnd : Bool) : Bool × Content :=
  if !( hasPrefix content p) then (false, content)
  else
    (true, if lineEnd then trimPrefix (trimPrefix content p) lineBreak
           else trimPrefix content p)

/-- Filesystem model: a path maps to its content when the file is readable. -/
def FS := Content → Option Content

/-- Whole-file write, as done by `os.WriteFile`. -/
def FS.update (fs : FS) (path c : Content) : FS :=
  fun q => if q = path then some c else fs q

/-- `injectPrefix` (src/main.go:214-236) at file level: read the file, skip when
the prefix is already present, otherwise overwrite with prefix (plus optional
line break) followed by the old content.  Result: the filesystem after the
call, the injected flag, and an error flag modelling the read failing (write
failures are not modelled separately). -/
def injectFile (fs : FS) (path p : Content) (lineEnd : Bool) : FS × Bool × Bool :=
  match fs path with
  | none => (fs, false, true)
  | some c =>
    let r := injectContent c p lineEnd
    if r.1 then (FS.update fs path r.2, true, false) else (fs, false, false)

/-- `removePrefix` (src/main.go:238-258) at file level. -/
def removeFile (fs : FS) (path p : Content) (lineEnd : Bool) : FS × Bool × Bool :=
  match fs path with
  | none => (fs, false, true)
  | some c =>
    let r := removeContent c p lineEnd
    if r.1 then (FS.update fs path r.2, true, false) else (fs, false, false)

/-- Console messages printed by the per-file loops (src/main.go:131-143 and 156-168). -/
inductive Msg where
  | errInject (path : Content)
  | alreadyHas (path : Content)
  | errRemove (path : Content)
  | didNotHave (path : Content)
deriving DecidableEq

/-- Per-file loop of `injectCmd` (src/main.go:131-143): a per-file error is
printed and the loop continues; a file whose injected flag is false is also
reported (in the source an erroring file reports both, since `injected` is
false on error). -/
def injectLoop (fs : FS) (files : List Content) (p : Content) (lineEnd : Bool)
    (log : List Msg) : FS × List Msg :=
  match files with
  | [] => (fs, log)
  | f :: rest =>
    let r := injectFile fs f p lineEnd
    let log1 := if r.2.2 then log ++ [Msg.errInject f] else log
    let log2 := if !r.2.1 then log1 ++ [Msg.alreadyHas f] else log1
    injectLoop r.1 rest p lineEnd log2

/-- Per-file loop of `removeCmd` (src/main.go:156-168). -/
def removeLoop (fs : FS) (files : List Content) (p : Content) (lineEnd : Bool)
    (log : List Msg) : FS × List Msg :=
  match files with
  | [] => (fs, log)
  | f :: rest =>
    let r := removeFile fs f p lineEnd
    let log1 := if r.2.2 then log ++ [Msg.errRemove f] else log
    let log2 := if !r.2.1 then log1 ++ [Msg.didNotHave f] else log1
    removeLoop r.1 rest p lineEnd log2

/-- Suffixes a shell `*` may leave unconsumed of a name: `*` matches any run of
characters containing no path separator (`path/filepath.Match` semantics). -/
def starCandidates : Content → List Content
  | [] => [[]]
  | c :: ns => (c :: ns) :: (if c = '/' then [] else starCandidates ns)

/-- Shell-glob matcher modelling `path/filepath.Match` as called by `walkMatch`
(src/main.go:199): `*` matches any run of non-separator characters, `?` one
such character, any other pattern character matches itself.  Character classes
and escapes, which this tool never passes, are not modelled, nor is
`ErrBadPattern`. -/
def globMatch : Content → Content → Bool
  | [], n => n.isEmpty
  | p :: ps, n =>
    if p = '*' then (starCandidates n).any fun t => globMatch ps t
    else
      match n with
      | [] => false
      | c :: ns => (if p = '?' then decide (c ≠ '/') else p == c) && globMatch ps ns

/-- `filepath.Base` on the paths `filepath.Walk` yields for regular files: the
segment after the last separator. -/
def baseName (path : Content) : Content :=
  (path.reverse.takeWhile fun c => decide (c ≠ '/')).reverse

/-- Directory entry as visited by `filepath.Walk`, in walk order. -/
structure Entry where
  path : Content
  isDir : Bool
deriving DecidableEq

/-- Traversal failure: the root does not exist or is not readable. -/
inductive WalkErr where
  | rootError
deriving DecidableEq

/-- Selection test of `walkMatch` (src/main.go:194-204): keep non-directory
entries whose base name matches the pattern. -/
def matchEntry (pat : Content) (e : Entry) : Bool :=
  !e.isDir && globMatch pat (baseName e.path)

/-- Paths collected by `walkMatch` from the walked entries. -/
def matchedFiles (entries : List Entry) (pat : Content) : List Content :=
  (entries.filter (matchEntry pat)).map Entry.path

/-- `walkMatch` (src/main.go:190-212): the walk result is an input — the
entries in walk order, or the traversal error. -/
def walkMatch (w : Except WalkErr (List Entry)) (pat : Content) :
    Except WalkErr (List Content) :=
  match w with
  | .error e => .error e
  | .ok entries => .ok (matchedFiles entries pat)

/-- `injectCmd` (src/main.go:118-146): walk, then run the per-file loop; a
traversal error is returned before the loop, a completed loop returns nil. -/
def injectCmdRun (w : Except WalkErr (List Entry)) (pat p : Content)
    (lineEnd : Bool) (fs : FS) : FS × List Msg × Option WalkErr :=
  match walkMatch w pat with
  | .error e => (fs, [], some e)
  | .ok files =>
    let r := injectLoop fs files p lineEnd []
    (r.1, r.2, none)

/-- `removeCmd` (src/main.go:147-171). -/
def removeCmdRun (w : Except WalkErr (List Entry)) (pat p : Content)
    (lineEnd : Bool) (fs : FS) : FS × List Msg × Option WalkErr :=
  match walkMatch w pat with
  | .error e => (fs, [], some e)
  | .ok files =>
    let r := removeLoop fs files p lineEnd []
    (r.1, r.2, none)

/-- Option-parsing failures of `parseOpts` (src/main.go:47-79) relevant to the
prefix: the prefix file was unreadable, or both sources yielded the empty string. -/
inductive ParseErr where
  | loadFailed
  | emptyPrefix
deriving DecidableEq

/-- `loadFile` (src/main.go:260-270): an empty path yields the empty string and
no error; otherwise the entire file content verbatim, or an error when the
file cannot be read. -/
def loadFile (fs : FS) (path : Content) : Except ParseErr Content :=
  if path = [] then .ok []
  else
    match fs path with
    | none => .error ParseErr.loadFailed
    | some c => .ok c

/-- Prefix resolution inside `parseOpts` (src/main.go:57-69): the `--prefix`
flag when non-empty, otherwise the content of the `--prefix-file` file; an
empty result is an error. -/
def resolvePrefix (fs : FS) (pfxArg pfxFilePath : Content) : Except ParseErr Content :=
  match (if pfxArg = [] then loadFile fs pfxFilePath else .ok pfxArg) with
  | .error e => .error e
  | .ok p => if p = [] then .error ParseErr.emptyPrefix else .ok p

/-- Errors an invocation can end with. -/
inductive CmdErr where
  | parse (e : ParseErr)
  | walk (e : WalkErr)
deriving DecidableEq

/-- Full `inject` invocation: `parseOpts` then `injectCmd`; a parse error
aborts before any target file is read or written. -/
def injectInvocation (fs : FS) (w : Except WalkErr (List Entry))
    (pfxArg pfxFilePath pat : Content) (lineEnd : Bool) : FS × List Msg × Option CmdErr :=
  match resolvePrefix fs pfxArg pfxFilePath with
  | .error e => (fs, [], some (CmdErr.parse e))
  | .ok p =>
    match injectCmdRun w pat p lineEnd fs with
    | (fs2, log, some e) => (fs2, log, some (CmdErr.walk e))
    | (fs2, log, none) => (fs2, log, none)

/-- Full `remove` invocation. -/
def removeInvocation (fs : FS) (w : Except WalkErr (List Entry))
    (pfxArg pfxFilePath pat : Content) (lineEnd : Bool) : FS × List Msg × Option CmdErr :=
  match resolvePrefix fs pfxArg pfxFilePath with
  | .error e => (fs, [], some (CmdErr.parse e))
  | .ok p =>
    match removeCmdRun w pat p lineEnd fs with
    | (fs2, log, some e) => (fs2, log, some (CmdErr.walk e))
    | (fs2, log, none) => (fs2, log, none)

/-- Singleton filesystem fixture used to instantiate file-level statements. -/
def fsOne (path c : Content) : FS :=
  fun q => if q = path then some c else none

/-- Pattern `*.txt` from the spec's selective-matching scenario. -/
def txtPattern : Content := ['*', '.', 't', 'x', 't']

/-- Extension `.txt` as a name suffix. -/
def txtSuffix : Content := ['.', 't', 'x', 't']

/-! Helper lemmas about the embedded string primitives. -/

theorem hasPrefix_append (p t : Content) : hasPrefix (p ++ t) p = true := by
  simp only [ hasPrefix, List.isPrefixOf_iff_prefix]
  exact List.prefix_append p t

theorem hasPrefix_nil (c : Content) : hasPrefix c [] = true := by
  simp only [ hasPrefix, List.isPrefixOf_iff_prefix]
  exact List.nil_prefix

theorem trimPrefix_append (p t : Content) : trimPrefix (p ++ t) p = t := by
  simp [ trimPrefix, hasPrefix_append, List.drop_left]

theorem trimPrefix_nil (c : Content) : trimPrefix c [] = c := by
  simp [ trimPrefix, hasPrefix_nil]

theorem FS.update_self (fs : FS) (path c : Content) :
    FS.update fs path c path = some c := by
  simp [FS.update]

theorem FS.update_other (fs : FS) (path c q : Content) (h : q ≠ path) :
    FS.update fs path c q = fs q := by
  simp [FS.update, h]

/-! Claim theorems. -/

/-- C1: for every original content `c` and prefix `p` that `c` does not already
start with, injecting and then removing the prefix (with the same line-break
flag, true or false) restores exactly `c`, both at content level and through
the file read/write cycle. -/
theorem c1_round_trip (c p : Content) (b : Bool) (fs : FS) (path : Content)
    (hno : hasPrefix c p = false) :
    removeContent (Prod.snd (injectContent c p b)) p b = (true, c) ∧
    (fs path = some c →
      Prod.fst (removeFile (Prod.fst (injectFile fs path p b)) path p b) path = some c) := by
  have hrc : removeContent (p ++ ((if b then lineBreak else []) ++ c)) p b = (true, c) := by
    cases b with
    | false => simp [removeContent, hasPrefix_append, trimPrefix_append]
    | true => simp [removeContent, hasPrefix_append, trimPrefix_append]
  have hsnd : Prod.snd (injectContent c p b) =
      p ++ ((if b then lineBreak else []) ++ c) := by
    simp [injectContent, hno, List.append_assoc]
  refine ⟨by rw [hsnd]; exact hrc, fun hread => ?_⟩
  have hinj : injectContent c p b =
      (true, p ++ ((if b then lineBreak else []) ++ c)) := by
    simp [injectContent, hno, List.append_assoc]
  have h1 : injectFile fs path p b =
      (FS.update fs path (p ++ ((if b then lineBreak else []) ++ c)), true, false) := by
    simp [injectFile, hread, hinj]
  rw [h1]
  have hread2 : FS.update fs path (p ++ ((if b then lineBreak else []) ++ c)) path =
      some (p ++ ((if b then lineBreak else []) ++ c)) := FS.update_self _ _ _
  have h2 : removeFile (FS.update fs path (p ++ ((if b then lineBreak else []) ++ c)))
      path p b =
      (FS.update (FS.update fs path (p ++ ((if b then lineBreak else []) ++ c))) path c,
        true, false) := by
    simp [removeFile, hread2, hrc]
  rw [h2]
  exact FS.update_self _ _ _

/-- C1 witness: a concrete instance of the round trip. -/
theorem c1_round_trip_witness :
    hasPrefix ['x'] ['P'] = false ∧
    fsOne ['a'] ['x'] ['a'] = some ['x'] ∧
    Prod.fst (removeFile (Prod.fst (injectFile (fsOne ['a'] ['x']) ['a'] ['P'] true))
      ['a'] ['P'] true) ['a'] = some ['x'] :=
  ⟨by decide, by decide,
    (c1_round_trip ['x'] ['P'] true (fsOne ['a'] ['x']) ['a'] (by decide)).2 (by decide)⟩

/-- C2 counterexample: with content `"PP"` and prefix `"P"`, a second remove
strips a further occurrence, so remove is not idempotent as claimed. -/
theorem c2_remove_not_idempotent_cex :
    Prod.snd (removeContent (Prod.snd (removeContent ['P', 'P'] ['P'] false))
        ['P'] false) ≠
      Prod.snd (removeContent ['P', 'P'] ['P'] false) := by
  decide

/-- C2 amended: remove is idempotent whenever the content left by the first
remove does not itself start with the prefix (in particular whenever the prefix
did not occur twice at the start); then the second remove reports no change,
leaves the content as is, and the file is not rewritten. -/
theorem c2_remove_idempotent_amended (c p : Content) (b : Bool) (fs : FS) (path : Content)
    (h : hasPrefix (Prod.snd (removeContent c p b)) p = false) :
    removeContent (Prod.snd (removeContent c p b)) p b =
      (false, Prod.snd (removeContent c p b)) ∧
    (fs path = some c →
      Prod.fst (removeFile (Prod.fst (removeFile fs path p b)) path p b) =
        Prod.fst (removeFile fs path p b)) := by
  have hstep : removeContent (Prod.snd (removeContent c p b)) p b =
      (false, Prod.snd (removeContent c p b)) := by
    generalize Prod.snd (removeContent c p b) = r at h
    simp [removeContent, h]
  refine ⟨hstep, fun hread => ?_⟩
  by_cases hc : hasPrefix c p = true
  · have hfst : Prod.fst (removeContent c p b) = true := by
      simp [removeContent, hc]
    have hrc : removeContent c p b =
        (true, Prod.snd (removeContent c p b)) := by
      rw [← hfst]
    have h1 : removeFile fs path p b =
        (FS.update fs path (Prod.snd (removeContent c p b)), true, false) := by
      simp only [removeFile, hread]
      rw [hrc]
      simp
    rw [h1]
    have hread2 := FS.update_self fs path (Prod.snd (removeContent c p b))
    simp [removeFile, hread2, hstep]
  · have hc' : hasPrefix c p = false := by
        cases hp : hasPrefix c p with
      | false => rfl
      | true => exact absurd hp hc
    have hrc : removeContent c p b = (false, c) := by
      simp [removeContent, hc']
    have h1 : removeFile fs path p b = (fs, false, false) := by
      simp [removeFile, hread, hrc]
    rw [h1]
    simp [removeFile, hread, hrc]

/-- C2 amended witness: content `"PX"`, prefix `"P"`. -/
theorem c2_remove_idempotent_amended_witness :
    hasPrefix (Prod.snd (removeContent ['P', 'X'] ['P'] false)) ['P'] = false ∧
    fsOne ['a'] ['P', 'X'] ['a'] = some ['P', 'X'] ∧
    removeContent (Prod.snd (removeContent ['P', 'X'] ['P'] false)) ['P'] false =
      (false, Prod.snd (removeContent ['P', 'X'] ['P'] false)) :=
  ⟨by decide, by decide,
    (c2_remove_idempotent_amended ['P', 'X'] ['P'] false (fsOne ['a'] ['P', 'X'])
      ['a'] (by decide)).1⟩

/-- C3: when the content already starts with the prefix byte-for-byte, inject
reports no change and leaves the content alone, for either flag value and
regardless of what follows the prefix; consequently a second inject after any
inject never changes anything. -/
theorem c3_inject_skip_idempotent (c p : Content) (b b' : Bool) (fs : FS) (path : Content) :
    ( hasPrefix c p = true →
      injectContent c p b = (false, c) ∧
      (fs path = some c → injectFile fs path p b = (fs, false, false))) ∧
    injectContent (Prod.snd (injectContent c p b')) p b =
      (false, Prod.snd (injectContent c p b')) := by
  constructor
  · intro h
    constructor
    · simp [injectContent, h]
    · intro hread
      simp [injectFile, hread, injectContent, h]
  · by_cases h : hasPrefix c p = true
    · simp [injectContent, h]
    · have h' : hasPrefix c p = false := by
        cases hp : hasPrefix c p with
        | false => rfl
        | true => exact absurd hp h
      have hsnd : Prod.snd (injectContent c p b') =
          p ++ ((if b' then lineBreak else []) ++ c) := by
        simp [injectContent, h', List.append_assoc]
      rw [hsnd]
      simp [injectContent, hasPrefix_append]

/-- C3 witness: content `"PQ"` already starts with `"P"`; the flag is set and
the next character is not a line break, yet inject still skips. -/
theorem c3_inject_skip_idempotent_witness :
    hasPrefix ['P', 'Q'] ['P'] = true ∧
    fsOne ['a'] ['P', 'Q'] ['a'] = some ['P', 'Q'] ∧
    injectContent ['P', 'Q'] ['P'] true = (false, ['P', 'Q']) ∧
    injectFile (fsOne ['a'] ['P', 'Q']) ['a'] ['P'] true = (fsOne ['a'] ['P', 'Q'], false, false) :=
  ⟨by decide, by decide,
    ((c3_inject_skip_idempotent ['P', 'Q'] ['P'] true true (fsOne ['a'] ['P', 'Q'])
      ['a']).1 (by decide)).1,
    ((c3_inject_skip_idempotent ['P', 'Q'] ['P'] true true (fsOne ['a'] ['P', 'Q'])
      ['a']).1 (by decide)).2 (by decide)⟩

/-- C4: when the content does not start with the prefix, inject produces
exactly prefix, then one line break iff the flag is set, then the original
content, reports a change, and overwrites the file with that content. -/
theorem c4_inject_construction (c p : Content) (b : Bool) (fs : FS) (path : Content)
    (h : hasPrefix c p = false) :
    injectContent c p b = (true, p ++ (if b then lineBreak else []) ++ c) ∧
    (fs path = some c →
      injectFile fs path p b =
        (FS.update fs path (p ++ (if b then lineBreak else []) ++ c), true, false)) := by
  have hc : injectContent c p b = (true, p ++ (if b then lineBreak else []) ++ c) := by
    simp [injectContent, h]
  refine ⟨hc, fun hread => ?_⟩
  simp only [injectFile, hread]
  rw [hc]
  simp

/-- C4 witness: the multi-line prefix `"A\nB\n"` injected into `"x"` with the
flag set yields `"A\nB\n\nx"`. -/
theorem c4_inject_construction_witness :
    hasPrefix ['x'] ['A', '\n', 'B', '\n'] = false ∧
    injectContent ['x'] ['A', '\n', 'B', '\n'] true =
      (true, ['A', '\n', 'B', '\n', '\n', 'x']) :=
  ⟨by decide,
    ((c4_inject_construction ['x'] ['A', '\n', 'B', '\n'] true
      (fsOne ['a'] ['x']) ['a'] (by decide)).1).trans (by decide)⟩

/-- C5: remove reports no change and leaves content alone when the prefix is
absent; otherwise it drops exactly one leading occurrence of the prefix and,
when the flag is set, one further leading line break if present, and reports
a change. -/
theorem c5_remove_contract (c p : Content) (b : Bool) (fs : FS) (path : Content) :
    ( hasPrefix c p = false →
      removeContent c p b = (false, c) ∧
      (fs path = some c → removeFile fs path p b = (fs, false, false))) ∧
    ( hasPrefix c p = true →
      removeContent c p b =
        (true,
          if b && hasPrefix (c.drop p.length) lineBreak then (c.drop p.length).drop 1
          else c.drop p.length) ∧
      (fs path = some c →
        removeFile fs path p b =
          (FS.update fs path
            (if b && hasPrefix (c.drop p.length) lineBreak then (c.drop p.length).drop 1
             else c.drop p.length), true, false))) := by
  constructor
  · intro h
    have hc : removeContent c p b = (false, c) := by
      simp [removeContent, h]
    exact ⟨hc, fun hread => by simp [removeFile, hread, hc]⟩
  · intro h
    have hc : removeContent c p b =
        (true,
          if b && hasPrefix (c.drop p.length) lineBreak then (c.drop p.length).drop 1
          else c.drop p.length) := by
      cases b with
      | false => simp [removeContent, trimPrefix, h]
      | true =>
        by_cases hlb : hasPrefix (c.drop p.length) lineBreak = true
        · simp [removeContent, trimPrefix, h, hlb, lineBreak]
        · have hlb' : hasPrefix (c.drop p.length) lineBreak = false := by
            cases hp : hasPrefix (c.drop p.length) lineBreak with
            | false => rfl
            | true => exact absurd hp hlb
          simp [removeContent, trimPrefix, h, hlb']
    refine ⟨hc, fun hread => ?_⟩
    simp only [removeFile, hread]
    rw [hc]
    simp

/-- C5 witness: content `"PFX\nhello"`, prefix `"PFX"`, flag set, becomes
`"hello"`. -/
theorem c5_remove_contract_witness :
    hasPrefix ['P', 'F', 'X', '\n', 'h', 'e', 'l', 'l', 'o'] ['P', 'F', 'X'] = true ∧
    removeContent ['P', 'F', 'X', '\n', 'h', 'e', 'l', 'l', 'o'] ['P', 'F', 'X'] true =
      (true, ['h', 'e', 'l', 'l', 'o']) :=
  ⟨by decide,
    (((c5_remove_contract ['P', 'F', 'X', '\n', 'h', 'e', 'l', 'l', 'o']
      ['P', 'F', 'X'] true (fsOne ['a'] []) ['a']).2 (by decide)).1).trans (by decide)⟩

/-- C10: with the empty prefix, inject always reports no change and never
writes, while remove always reports a change and rewrites the file — with
byte-identical content when the flag is clear, and with at most one leading
line break stripped when it is set — so the changed flag does not imply the
content differs. -/
theorem c10_empty_prefix_behaviour (c path : Content) (fs : FS) (b : Bool) :
    injectContent c [] b = (false, c) ∧
    removeContent c [] false = (true, c) ∧
    removeContent c [] true = (true, if hasPrefix c lineBreak then c.drop 1 else c) ∧
    (fs path = some c →
      injectFile fs path [] b = (fs, false, false) ∧
      removeFile fs path [] false = (FS.update fs path c, true, false)) := by
  have hinj : injectContent c [] b = (false, c) := by
    simp [injectContent, hasPrefix_nil]
  have hremf : removeContent c [] false = (true, c) := by
    simp [removeContent, hasPrefix_nil, trimPrefix_nil]
  refine ⟨hinj, hremf, ?_, fun hread => ⟨?_, ?_⟩⟩
  · by_cases hlb : hasPrefix c lineBreak = true
    · simp [removeContent, hasPrefix_nil, trimPrefix_nil, trimPrefix, hlb, lineBreak]
    · have hlb' : hasPrefix c lineBreak = false := by
        cases hp : hasPrefix c lineBreak with
        | false => rfl
        | true => exact absurd hp hlb
      simp [removeContent, hasPrefix_nil, trimPrefix_nil, trimPrefix, hlb']
  · simp [injectFile, hread, hinj]
  · simp [removeFile, hread, hremf]

/-! Helper lemmas about the glob matcher, the selector and the loops. -/

theorem starCandidates_mem (n t : Content) (hn : '/' ∉ n) :
    t ∈ starCandidates n ↔ t <:+ n := by
  induction n with
  | nil => simp [starCandidates]
  | cons c ns ih =>
    have hc : ¬(c = '/') := fun h => hn (by rw [h]; exact List.mem_cons_self '/' ns)
    have hns : '/' ∉ ns := fun h => hn (List.mem_cons_of_mem c h)
    simp [starCandidates, hc, ih hns, List.suffix_cons_iff]

theorem globMatch_literal (ps : Content) (hps : ∀ ch ∈ ps, ch ≠ '*' ∧ ch ≠ '?') :
    ∀ n : Content, (globMatch ps n = true ↔ n = ps) := by
  induction ps with
  | nil =>
    intro n
    cases n <;> simp [globMatch]
  | cons p ps ih =>
    intro n
    have hp := hps p (List.mem_cons_self p ps)
    have hps' : ∀ ch ∈ ps, ch ≠ '*' ∧ ch ≠ '?' :=
      fun ch hch => hps ch (List.mem_cons_of_mem p hch)
    cases n with
    | nil => simp [globMatch, hp.1]
    | cons c ns =>
      simp only [globMatch, hp.1, if_false, hp.2, Bool.and_eq_true, beq_iff_eq,
        ih hps' ns, List.cons.injEq]
      constructor
      · rintro ⟨h1, h2⟩
        exact ⟨h1.symm, h2⟩
      · rintro ⟨h1, h2⟩
        exact ⟨h1.symm, h2⟩

theorem globMatch_star_literal (ps : Content) (hps : ∀ ch ∈ ps, ch ≠ '*' ∧ ch ≠ '?')
    (n : Content) (hn : '/' ∉ n) :
    globMatch ('*' :: ps) n = true ↔ ps <:+ n := by
  have hunf : globMatch ('*' :: ps) n = (starCandidates n).any fun t => globMatch ps t := by
    simp [globMatch]
  rw [hunf, List.any_eq_true]
  constructor
  · rintro ⟨t, ht, hgt⟩
    have := ( globMatch_literal ps hps t).1 hgt
    rw [this] at ht
    exact (starCandidates_mem n ps hn).1 ht
  · intro hsuf
    exact ⟨ps, (starCandidates_mem n ps hn).2 hsuf,
      ( globMatch_literal ps hps ps).2 rfl⟩

theorem slash_not_mem_baseName (path : Content) : '/' ∉ baseName path := by
  intro h
  have h' : '/' ∈ path.reverse.takeWhile (fun c => decide (c ≠ '/')) := by
    have := (List.mem_reverse).1 h
    exact this
  have := List.mem_takeWhile_imp h'
  simp at this

theorem mem_matchedFiles (entries : List Entry) (pat x : Content) :
    x ∈ matchedFiles entries pat ↔
      ∃ e ∈ entries, e.path = x ∧ e.isDir = false ∧ globMatch pat (baseName x) = true := by
  simp only [matchedFiles, List.mem_map, List.mem_filter, matchEntry,
    Bool.and_eq_true, Bool.not_eq_true']
  constructor
  · rintro ⟨e, ⟨he, hdir, hm⟩, rfl⟩
    exact ⟨e, he, rfl, hdir, hm⟩
  · rintro ⟨e, he, rfl, hdir, hm⟩
    exact ⟨e, ⟨he, hdir, hm⟩, rfl⟩

theorem injectFile_fst_other (fs : FS) (f p : Content) (b : Bool) (g : Content)
    (hgf : g ≠ f) : Prod.fst (injectFile fs f p b) g = fs g := by
  cases hf : fs f with
  | none => simp [injectFile, hf]
  | some c =>
    by_cases hch : Prod.fst (injectContent c p b) = true
    · simp [injectFile, hf, hch, FS.update_other _ _ _ _ hgf]
    · simp [injectFile, hf, hch]

theorem removeFile_fst_other (fs : FS) (f p : Content) (b : Bool) (g : Content)
    (hgf : g ≠ f) : Prod.fst (removeFile fs f p b) g = fs g := by
  cases hf : fs f with
  | none => simp [removeFile, hf]
  | some c =>
    by_cases hch : Prod.fst (removeContent c p b) = true
    · simp [removeFile, hf, hch, FS.update_other _ _ _ _ hgf]
    · simp [removeFile, hf, hch]

theorem injectLoop_untouched (files : List Content) (fs : FS) (p : Content) (b : Bool)
    (log : List Msg) (g : Content) (hg : g ∉ files) :
    Prod.fst (injectLoop fs files p b log) g = fs g := by
  induction files generalizing fs log with
  | nil => rfl
  | cons f rest ih =>
    have hgf : g ≠ f := fun h => hg (by rw [h]; exact List.mem_cons_self f rest)
    have hgrest : g ∉ rest := fun h => hg (List.mem_cons_of_mem f h)
    simp only [injectLoop]
    rw [ih _ _ hgrest]
    exact injectFile_fst_other fs f p b g hgf

theorem removeLoop_untouched (files : List Content) (fs : FS) (p : Content) (b : Bool)
    (log : List Msg) (g : Content) (hg : g ∉ files) :
    Prod.fst (removeLoop fs files p b log) g = fs g := by
  induction files generalizing fs log with
  | nil => rfl
  | cons f rest ih =>
    have hgf : g ≠ f := fun h => hg (by rw [h]; exact List.mem_cons_self f rest)
    have hgrest : g ∉ rest := fun h => hg (List.mem_cons_of_mem f h)
    simp only [removeLoop]
    rw [ih _ _ hgrest]
    exact removeFile_fst_other fs f p b g hgf

/-- C6: a traversal failure makes both the inject and the remove command return
the error with the filesystem untouched and nothing logged — the per-file loop
is never entered. -/
theorem c6_traversal_failure_aborts (e : WalkErr) (pat p : Content) (b : Bool) (fs : FS) :
    injectCmdRun (Except.error e) pat p b fs = (fs, [], some e) ∧
    removeCmdRun (Except.error e) pat p b fs = (fs, [], some e) :=
  ⟨rfl, rfl⟩

/-- C7: a per-file read failure is logged (together with the not-injected or
not-removed notice the source also prints, since the changed flag is false on
error) and the loop continues with the remaining files unchanged; the commands
nevertheless finish without an overall error. -/
theorem c7_per_file_errors_continue (fs : FS) (f : Content) (rest : List Content)
    (p : Content) (b : Bool) (log : List Msg) (entries : List Entry) (pat : Content) :
    (fs f = none →
      injectLoop fs (f :: rest) p b log =
        injectLoop fs rest p b (log ++ [Msg.errInject f, Msg.alreadyHas f]) ∧
      removeLoop fs (f :: rest) p b log =
        removeLoop fs rest p b (log ++ [Msg.errRemove f, Msg.didNotHave f])) ∧
    Prod.snd (Prod.snd (injectCmdRun (Except.ok entries) pat p b fs)) = none ∧
    Prod.snd (Prod.snd (removeCmdRun (Except.ok entries) pat p b fs)) = none := by
  refine ⟨fun h => ⟨?_, ?_⟩, rfl, rfl⟩
  · simp [injectLoop, injectFile, h]
  · simp [removeLoop, removeFile, h]

/-- C7 witness: a loop whose sole file is unreadable. -/
theorem c7_per_file_errors_continue_witness :
    fsOne ['a'] ['x'] ['q'] = none ∧
    injectLoop (fsOne ['a'] ['x']) [['q']] ['P'] false [] =
      injectLoop (fsOne ['a'] ['x']) [] ['P'] false
        ([] ++ [Msg.errInject ['q'], Msg.alreadyHas ['q']]) :=
  ⟨by decide,
    ((c7_per_file_errors_continue (fsOne ['a'] ['x']) ['q'] [] ['P'] false [] []
      ['*']).1 (by decide)).1⟩

/-- C8: the selector keeps exactly the non-directory entries whose base name
matches the pattern; with pattern `*.txt` the base names kept are exactly
those ending in `.txt`, and every unselected path keeps its content through a
whole inject or remove run. -/
theorem c8_file_selection (entries : List Entry) (pat x g : Content) (fs : FS)
    (p : Content) (b : Bool) (log : List Msg) :
    (x ∈ matchedFiles entries pat ↔
      ∃ e ∈ entries, e.path = x ∧ e.isDir = false ∧ globMatch pat (baseName x) = true) ∧
    (x ∈ matchedFiles entries txtPattern ↔
      ∃ e ∈ entries, e.path = x ∧ e.isDir = false ∧ txtSuffix <:+ baseName x) ∧
    (g ∉ matchedFiles entries pat →
      Prod.fst (injectLoop fs (matchedFiles entries pat) p b log) g = fs g ∧
      Prod.fst (removeLoop fs (matchedFiles entries pat) p b log) g = fs g) := by
  refine ⟨mem_matchedFiles entries pat x, ?_, fun hg =>
    ⟨injectLoop_untouched _ fs p b log g hg, removeLoop_untouched _ fs p b log g hg⟩⟩
  rw [mem_matchedFiles entries txtPattern x]
  have hlit : ∀ ch ∈ txtSuffix, ch ≠ '*' ∧ ch ≠ '?' := by decide
  have hglob : globMatch txtPattern (baseName x) = true ↔ txtSuffix <:+ baseName x :=
    globMatch_star_literal txtSuffix hlit (baseName x) (slash_not_mem_baseName x)
  constructor
  · rintro ⟨e, he, hx, hdir, hm⟩
    exact ⟨e, he, hx, hdir, hglob.1 hm⟩
  · rintro ⟨e, he, hx, hdir, hm⟩
    exact ⟨e, he, hx, hdir, hglob.2 hm⟩

/-- C8 witness: a tree with a `.txt` file, a `.json` file and a directory;
the `.json` file is not selected and survives an inject run unchanged. -/
theorem c8_file_selection_witness :
    ['b', '.', 'j', 's', 'o', 'n'] ∉
      matchedFiles [Entry.mk ['a', '.', 't', 'x', 't'] false,
        Entry.mk ['b', '.', 'j', 's', 'o', 'n'] false, Entry.mk ['d'] true] txtPattern ∧
    Prod.fst (injectLoop (fsOne ['a', '.', 't', 'x', 't'] ['x'])
        (matchedFiles [Entry.mk ['a', '.', 't', 'x', 't'] false,
          Entry.mk ['b', '.', 'j', 's', 'o', 'n'] false, Entry.mk ['d'] true] txtPattern)
        ['P'] false []) ['b', '.', 'j', 's', 'o', 'n'] =
      fsOne ['a', '.', 't', 'x', 't'] ['x'] ['b', '.', 'j', 's', 'o', 'n'] :=
  ⟨by decide,
    ((c8_file_selection [Entry.mk ['a', '.', 't', 'x', 't'] false,
      Entry.mk ['b', '.', 'j', 's', 'o', 'n'] false, Entry.mk ['d'] true] txtPattern
      ['a', '.', 't', 'x', 't'] ['b', '.', 'j', 's', 'o', 'n']
      (fsOne ['a', '.', 't', 'x', 't'] ['x']) ['P'] false []).2.2 (by decide)).1⟩

/-- C9: the `--prefix` flag wins whenever non-empty; otherwise the prefix is
the verbatim content of the `--prefix-file` file; an unreadable prefix file or
an empty resulting prefix is a parse error, and any parse error aborts the
invocation with the filesystem untouched and nothing logged. -/
theorem c9_prefix_resolution (fs : FS) (w : Except WalkErr (List Entry))
    (pfxArg pfxFilePath pat c : Content) (b : Bool) :
    (pfxArg ≠ [] → resolvePrefix fs pfxArg pfxFilePath = Except.ok pfxArg) ∧
    (pfxArg = [] → pfxFilePath ≠ [] → fs pfxFilePath = some c → c ≠ [] →
      resolvePrefix fs pfxArg pfxFilePath = Except.ok c) ∧
    (pfxArg = [] → pfxFilePath ≠ [] → fs pfxFilePath = none →
      resolvePrefix fs pfxArg pfxFilePath = Except.error ParseErr.loadFailed) ∧
    (pfxArg = [] → pfxFilePath = [] →
      resolvePrefix fs pfxArg pfxFilePath = Except.error ParseErr.emptyPrefix) ∧
    (pfxArg = [] → pfxFilePath ≠ [] → fs pfxFilePath = some [] →
      resolvePrefix fs pfxArg pfxFilePath = Except.error ParseErr.emptyPrefix) ∧
    (∀ e, resolvePrefix fs pfxArg pfxFilePath = Except.error e →
      injectInvocation fs w pfxArg pfxFilePath pat b = (fs, [], some (CmdErr.parse e)) ∧
      removeInvocation fs w pfxArg pfxFilePath pat b = (fs, [], some (CmdErr.parse e))) := by
  refine ⟨fun hA => ?_, fun hA hF hread hc => ?_, fun hA hF hread => ?_,
    fun hA hF => ?_, fun hA hF hread => ?_, fun e he => ⟨?_, ?_⟩⟩
  · simp [ resolvePrefix, hA]
  · simp [ resolvePrefix, hA, loadFile, hF, hread, hc]
  · simp [ resolvePrefix, hA, loadFile, hF, hread]
  · simp [ resolvePrefix, hA, loadFile, hF]
  · simp [ resolvePrefix, hA, loadFile, hF, hread]
  · simp [injectInvocation, he]
  · simp [removeInvocation, he]

/-- C9 witness: an empty `--prefix` together with an empty prefix file is a
parse error, and the inject invocation aborts with the filesystem untouched. -/
theorem c9_prefix_resolution_witness :
    resolvePrefix (fsOne ['f'] []) [] ['f'] = Except.error ParseErr.emptyPrefix ∧
    injectInvocation (fsOne ['f'] []) (Except.ok []) [] ['f'] ['*'] false =
      (fsOne ['f'] [], [], some (CmdErr.parse ParseErr.emptyPrefix)) :=
  ⟨rfl,
    ((c9_prefix_resolution (fsOne ['f'] []) (Except.ok []) [] ['f'] ['*'] [] false).2.2.2.2.2
      ParseErr.emptyPrefix rfl).1⟩

/-- C10 witness: a concrete file with content `"x"`. -/
theorem c10_empty_prefix_behaviour_witness :
    fsOne ['a'] ['x'] ['a'] = some ['x'] ∧
    injectFile (fsOne ['a'] ['x']) ['a'] [] false = (fsOne ['a'] ['x'], false, false) ∧
    removeFile (fsOne ['a'] ['x']) ['a'] [] false =
      (FS.update (fsOne ['a'] ['x']) ['a'] ['x'], true, false) :=
  ⟨by decide,
    ((c10_empty_prefix_behaviour ['x'] ['a'] (fsOne ['a'] ['x']) false).2.2.2
      (by decide)).1,
    ((c10_empty_prefix_behaviour ['x'] ['a'] (fsOne ['a'] ['x']) false).2.2.2
      (by decide)).2⟩

end Preffixer
